import Mathlib

/-!
Verification development for the badminton match-analysis engines:
the tempo threshold-and-classification engine and the tactical phase
segmentation engine.  Definitions are shallow embeddings of the Python
code documented in the repository; where a body is not present in the
repository the definition is modelled from the specification and its
doc comment says so.  Rationals stand in for Python floats, `Option`
for nullable values, and association lists for dictionaries.
-/

/-- Raw response time, from `build_tempo_analysis.py` lines 241-243:
`response_time_sec_raw = (frame - opp_prev_frame) / (fps if fps > 0 else 30.0)`
when `opp_prev_frame` is not `None`, else `None`. -/
def response_time_sec_raw (opp_prev_frame : Option ℤ) (frame : ℤ) (fps : ℚ) : Option ℚ :=
  match opp_prev_frame with
  | none => none
  | some g => some (((frame : ℚ) - (g : ℚ)) / (if 0 < fps then fps else 30))

/-- Clamping, from line 356: `clip(lower=lower_cap, upper=upper_cap)`,
i.e. values below `lo` become `lo` and values above `hi` become `hi`. -/
def clip (lo hi x : ℚ) : ℚ := min hi (max lo x)

/-- Default lower cap: 0.15 seconds. -/
def lower_cap : ℚ := 3 / 20

/-- Default upper cap: 4.0 seconds. -/
def upper_cap : ℚ := 4

/-- Clamped response time with the default caps. -/
def rt_clamped (x : ℚ) : ℚ := clip lower_cap upper_cap x

/-- Statistics record for one grouping key (`ComboStats` in the source).
Fields are nullable because `null_if_insufficient` erases them when the
sample count is below the configured minimum. -/
structure ComboStats where
  count : ℕ
  median : Option ℚ
  p10 : Option ℚ
  p90 : Option ℚ
  mad : Option ℚ
deriving DecidableEq

/-- Modelled from the spec: the percentile function whose body is not in
the repository, described as "linear-interpolation percentile".  Sort the
values, take `h = (p/100)*(n-1)`, and linearly interpolate between the
values at positions `floor h` and `floor h + 1` (clamped to the range). -/
def percentile (values : List ℚ) (p : ℚ) : ℚ :=
  let s := values.mergeSort (fun a b => decide (a ≤ b))
  let n := s.length
  if n = 0 then 0
  else
    let h : ℚ := (p / 100) * ((n : ℚ) - 1)
    let k : ℕ := min (⌊h⌋.toNat) (n - 1)
    let j : ℕ := min (k + 1) (n - 1)
    let a := s.getD k 0
    let b := s.getD j 0
    a + (h - (k : ℚ)) * (b - a)

/-- Modelled from the spec: the median, whose body is not in the
repository; middle element of the sorted list, or the mean of the two
middle elements when the length is even. -/
def median (values : List ℚ) : ℚ :=
  let s := values.mergeSort (fun a b => decide (a ≤ b))
  let n := s.length
  if n = 0 then 0
  else if n % 2 = 1 then s.getD (n / 2) 0
  else (s.getD (n / 2 - 1) 0 + s.getD (n / 2) 0) / 2

/-- Modelled from the spec: the median absolute deviation, whose body is
not in the repository; the median of the absolute deviations from `med`. -/
def mad (values : List ℚ) (med : ℚ) : ℚ :=
  median (values.map (fun v => |v - med|))

/-- From source lines 157-165: `compute_stats(values)` builds a
`ComboStats` with count, median, p10, p90 and MAD. -/
def compute_stats (values : List ℚ) : ComboStats :=
  let med := median values
  { count := values.length
    median := some med
    p10 := some (percentile values 10)
    p90 := some (percentile values 90)
    mad := some (mad values med) }

/-- Python truthiness of an `Optional[float]`: `None` and `0.0` are falsy. -/
def pyTruthy : Option ℚ → Bool
  | none => false
  | some x => !(decide (x = 0))

/-- Python truthiness of an `Optional[str]`: `None` and `""` are falsy. -/
def strTruthy : Option String → Bool
  | none => false
  | some s => !(s == "")

/-- The test `if st and st.p10 and st.p90: return st.p10, st.p90` applied
to the result of a dictionary lookup: yields the stored thresholds when
the stat exists and both thresholds are truthy. -/
def tryStat : Option ComboStats → Option (Option ℚ × Option ℚ)
  | none => none
  | some st => if pyTruthy st.p10 && pyTruthy st.p90 then some (st.p10, st.p90) else none

/-- Arguments of `choose_threshold_for_event`: the event's keys and the
six statistics dictionaries (modelled as association lists). -/
structure ChooseArgs where
  incoming_eff_bin : Option String
  combo_key : String
  opp_only_key : String
  player : String
  combo_stats_q : List (String × ComboStats)
  opp_only_stats_q : List (String × ComboStats)
  baseline_stats_q : List (String × ComboStats)
  combo_stats : List (String × ComboStats)
  opp_only_stats : List (String × ComboStats)
  baseline_stats : List (String × ComboStats)

/-- The quality-bin suffix used to build quality-conditioned keys
(`f"{key}|q:{incoming_eff_bin}"`). -/
def qbin (a : ChooseArgs) : String :=
  match a.incoming_eff_bin with
  | some s => s
  | none => ""

/-- Family names in priority order, as returned by the source
(`"combo_q"`, `"opp_only_q"`, `"baseline_q"`, `"combo"`, `"opp_only"`,
`"baseline"`); anything past the sixth family is `"none"`. -/
def famName : ℕ → String
  | 0 => "combo_q"
  | 1 => "opp_only_q"
  | 2 => "baseline_q"
  | 3 => "combo"
  | 4 => "opp_only"
  | 5 => "baseline"
  | _ => "none"

/-- The attempt made at family `k` by `choose_threshold_for_event`
(source lines 422-467), with the exact guards of the Python code:
quality families need a truthy `incoming_eff_bin` and a non-empty
dictionary, families 4 and 5 need a truthy key, family 6 is unguarded. -/
def codeTry (a : ChooseArgs) : ℕ → Option (Option ℚ × Option ℚ)
  | 0 =>
    if strTruthy a.incoming_eff_bin && !a.combo_stats_q.isEmpty then
      tryStat (a.combo_stats_q.lookup (a.combo_key ++ "|q:" ++ qbin a))
    else none
  | 1 =>
    if strTruthy a.incoming_eff_bin && !a.opp_only_stats_q.isEmpty then
      tryStat (a.opp_only_stats_q.lookup (a.opp_only_key ++ "|q:" ++ qbin a))
    else none
  | 2 =>
    if strTruthy a.incoming_eff_bin && !a.baseline_stats_q.isEmpty then
      tryStat (a.baseline_stats_q.lookup (a.player ++ "|q:" ++ qbin a))
    else none
  | 3 =>
    if !(a.combo_key == "") then tryStat (a.combo_stats.lookup a.combo_key) else none
  | 4 =>
    if !(a.opp_only_key == "") then tryStat (a.opp_only_stats.lookup a.opp_only_key) else none
  | 5 => tryStat (a.baseline_stats.lookup a.player)
  | _ => none

/-- The sequencing of the six `if ... return` blocks of
`choose_threshold_for_event`: the first successful attempt wins, and if
all fail the result is `(None, None, "none")`. -/
def cascade (t : ℕ → Option (Option ℚ × Option ℚ)) : Option ℚ × Option ℚ × String :=
  match t 0 with
  | some p => (p.1, p.2, famName 0)
  | none =>
  match t 1 with
  | some p => (p.1, p.2, famName 1)
  | none =>
  match t 2 with
  | some p => (p.1, p.2, famName 2)
  | none =>
  match t 3 with
  | some p => (p.1, p.2, famName 3)
  | none =>
  match t 4 with
  | some p => (p.1, p.2, famName 4)
  | none =>
  match t 5 with
  | some p => (p.1, p.2, famName 5)
  | none => (none, none, "none")

/-- Threshold selection, source lines 422-467: try the six families in
priority order and return the first hit as `(p10, p90, source)`. -/
def choose_threshold_for_event (a : ChooseArgs) : Option ℚ × Option ℚ × String :=
  cascade (codeTry a)

/-- The family lookup as worded by the spec: quality-conditioned
families are consulted only when `incoming_quality_bin` is non-null;
each family looks up its own key in its own table. -/
def specLookup (a : ChooseArgs) : ℕ → Option ComboStats
  | 0 =>
    if a.incoming_eff_bin.isSome then
      a.combo_stats_q.lookup (a.combo_key ++ "|q:" ++ qbin a)
    else none
  | 1 =>
    if a.incoming_eff_bin.isSome then
      a.opp_only_stats_q.lookup (a.opp_only_key ++ "|q:" ++ qbin a)
    else none
  | 2 =>
    if a.incoming_eff_bin.isSome then
      a.baseline_stats_q.lookup (a.player ++ "|q:" ++ qbin a)
    else none
  | 3 => a.combo_stats.lookup a.combo_key
  | 4 => a.opp_only_stats.lookup a.opp_only_key
  | 5 => a.baseline_stats.lookup a.player
  | _ => none

/-- A family attempt as worded by the spec: the statistic must exist and
be non-null (its `p10` and `p90` not erased by the minimum-count rule). -/
def statNonNull : Option ComboStats → Option (Option ℚ × Option ℚ)
  | none => none
  | some st => if st.p10.isSome && st.p90.isSome then some (st.p10, st.p90) else none

/-- Family `k` is available for the event in the sense of the spec. -/
def specTry (a : ChooseArgs) (k : ℕ) : Option (Option ℚ × Option ℚ) :=
  statNonNull (specLookup a k)

/-- A stored threshold is well formed when, if present, it is positive.
In the pipeline every stored percentile comes from clamped response
times, which are at least `lower_cap > 0`. -/
def wfOpt : Option ℚ → Bool
  | none => true
  | some x => decide (0 < x)

/-- All stats of a table have well-formed (positive when present)
`p10` and `p90` thresholds. -/
def wfTable (t : List (String × ComboStats)) : Bool :=
  t.all (fun kv => wfOpt kv.2.p10 && wfOpt kv.2.p90)

/-- Classification, source lines 470-481: `None` when any input is
`None`, else fast/slow/normal with inclusive boundaries. -/
def classify_event (value fast_th slow_th : Option ℚ) : Option String :=
  match value, fast_th, slow_th with
  | some v, some f, some s =>
    some (if v ≤ f then "fast" else if s ≤ v then "slow" else "normal")
  | _, _, _ => none

/-- Modelled from the spec: the z-score guard, whose body is not in the
repository; `z = (value_clamped - baseline.median) / baseline.mad` with
the division guarded so that a zero MAD (or a missing field) yields
null instead of an error or infinity. -/
def z_score_baseline_mad (v : ℚ) (st : ComboStats) : Option ℚ :=
  match st.median, st.mad with
  | some m, some d => if d = 0 then none else some ((v - m) / d)
  | _, _ => none

/-- The z-score of one event: looked up in the player-level (family 6)
baseline table only, regardless of which family classification used. -/
def z_of_event (a : ChooseArgs) (v : ℚ) : Option ℚ :=
  match a.baseline_stats.lookup a.player with
  | some st => z_score_baseline_mad v st
  | none => none

/-- One row of the tempo event table that matters for baseline
construction: the player and the (nullable) raw response time. -/
structure SampleRow where
  player : String
  raw : Option ℚ
deriving DecidableEq

/-- The `df_valid` step: rows whose raw response time is non-null;
rows with no opponent-previous-frame never enter the statistics. -/
def validRows (rows : List SampleRow) : List SampleRow :=
  rows.filter (fun r => r.raw.isSome)

/-- The clamped response times of one player's valid rows. -/
def playerValues (rows : List SampleRow) (p : String) : List ℚ :=
  ((validRows rows).filter (fun r => r.player == p)).map (fun r => rt_clamped (r.raw.getD 0))

/-- Family-6 baseline table: one entry per player appearing among the
valid rows, holding `compute_stats` of that player's clamped values. -/
def build_baseline_stats (rows : List SampleRow) : List (String × ComboStats) :=
  (((validRows rows).map (fun r => r.player)).dedup).map
    (fun q => (q, compute_stats (playerValues rows q)))

/-- One shot of a rally as the phase engine sees it: the category
bucket, the serve flag, and the effectiveness value. -/
structure Shot where
  cat : String
  serve : Bool
  eff : ℚ
deriving DecidableEq

/-- A phase segment: the contiguous run of shots it covers, its
category, and whether it is a serve phase. -/
structure PhaseSegment where
  shots : List Shot
  category : String
  serve : Bool
deriving DecidableEq

/-- Number of shots of a segment. -/
def segCount (s : PhaseSegment) : ℕ := s.shots.length

/-- Mean effectiveness of a segment (the average over its shots). -/
def mean_effectiveness (s : PhaseSegment) : ℚ :=
  (s.shots.map Shot.eff).sum / (segCount s : ℚ)

/-- The shots covered by a segment list, in order. -/
def joinShots (segs : List PhaseSegment) : List Shot :=
  (segs.map PhaseSegment.shots).flatten

/-- Total shot count across a segment list. -/
def totalShots (segs : List PhaseSegment) : ℕ :=
  (segs.map segCount).sum

/-- Modelled from the spec: raw phase segmentation, whose code is not in
the repository.  Scan the shots in order and start a new segment on
every category change or serve boundary; a serve shot always forms its
own segment of length 1 and a non-serve shot never joins a serve
segment. -/
def pushShot (sh : Shot) : List PhaseSegment → List PhaseSegment
  | [] => [⟨[sh], sh.cat, false⟩]
  | seg :: segs =>
    if seg.serve || !(seg.category == sh.cat) then
      ⟨[sh], sh.cat, false⟩ :: seg :: segs
    else
      ⟨sh :: seg.shots, sh.cat, false⟩ :: segs

/-- Modelled from the spec: raw phase segmentation (the scan itself);
`pushShot` above prepends one non-serve shot to the segmentation of the
remaining shots, joining the adjacent segment exactly when that segment
is a non-serve segment of the same category. -/
def raw_segments : List Shot → List PhaseSegment
  | [] => []
  | sh :: rest =>
    if sh.serve then ⟨[sh], sh.cat, true⟩ :: raw_segments rest
    else pushShot sh (raw_segments rest)

/-- The segment at index `idx` viewed as a merge candidate: serve
segments are never candidates. -/
def nbAt (segs : List PhaseSegment) (idx : ℕ) : Option PhaseSegment :=
  match segs[idx]? with
  | some s => if s.serve then none else some s
  | none => none

/-- Modelled from the spec: the neighbor a too-short segment at index
`i` merges into.  Serve segments are never candidates in either
direction; with two candidates the one with the longer shot count is
preferred, and on a tie the following segment wins. -/
def mergeTarget (segs : List PhaseSegment) (i : ℕ) : Option ℕ :=
  match (if i = 0 then none else nbAt segs (i - 1)), nbAt segs (i + 1) with
  | none, none => none
  | some _, none => some (i - 1)
  | none, some _ => some (i + 1)
  | some p, some n => if segCount p ≤ segCount n then some (i + 1) else some (i - 1)

/-- Modelled from the spec: a segment is mergeable when it is not a
serve phase, is shorter than `min_phase_length`, and has a non-serve
neighbor to merge into. -/
def isMergeable (minLen : ℕ) (segs : List PhaseSegment) (i : ℕ) : Bool :=
  match segs[i]? with
  | some s => !s.serve && decide (segCount s < minLen) && (mergeTarget segs i).isSome
  | none => false

/-- Shot count at index `i`, zero when out of range. -/
def cntAt (segs : List PhaseSegment) (i : ℕ) : ℕ :=
  match segs[i]? with
  | some s => segCount s
  | none => 0

/-- Keep the index with the smaller shot count (leftmost among equals). -/
def pickBetter (segs : List PhaseSegment) (best : Option ℕ) (i : ℕ) : Option ℕ :=
  match best with
  | none => some i
  | some j => if cntAt segs i < cntAt segs j then some i else some j

/-- Modelled from the spec: pick the shortest mergeable segment
(leftmost among equals). -/
def pickMergeable (minLen : ℕ) (segs : List PhaseSegment) : Option ℕ :=
  ((List.range segs.length).filter (fun i => isMergeable minLen segs i)).foldl
    (pickBetter segs) none

/-- Modelled from the spec: the merged segment.  Shot ranges are
concatenated in positional order; the category is that of the segment
with the greater pre-merge shot count (the absorbing neighbor on a
tie); the result is never a serve phase. -/
def mergedSeg (short nb : PhaseSegment) (short_first : Bool) : PhaseSegment :=
  { shots := if short_first then short.shots ++ nb.shots else nb.shots ++ short.shots
    category := if segCount nb < segCount short then short.category else nb.category
    serve := false }

/-- Modelled from the spec: merge the segment at index `i` into its
chosen neighbor, replacing the two by one. -/
def applyMerge (segs : List PhaseSegment) (i : ℕ) : List PhaseSegment :=
  match segs[i]?, mergeTarget segs i with
  | some short, some j =>
    if j = i + 1 then
      match segs[i+1]? with
      | some nb => segs.take i ++ mergedSeg short nb true :: segs.drop (i + 2)
      | none => segs
    else
      match segs[i-1]? with
      | some nb => segs.take (i - 1) ++ mergedSeg short nb false :: segs.drop (i + 1)
      | none => segs
  | _, _ => segs

/-- Modelled from the spec: the bounded merge loop; each merge reduces
the segment count by one, so fuel equal to the segment count suffices. -/
def mergePass (minLen : ℕ) : ℕ → List PhaseSegment → List PhaseSegment
  | 0, segs => segs
  | fuel + 1, segs =>
    match pickMergeable minLen segs with
    | none => segs
    | some i => mergePass minLen fuel (applyMerge segs i)

/-- Modelled from the spec: the minimum-length merge pass, repeated to
a fixed point. -/
def merge_phases (minLen : ℕ) (segs : List PhaseSegment) : List PhaseSegment :=
  mergePass minLen segs.length segs

/-- The whole phase pipeline: raw segmentation then the merge pass. -/
def phase_segments (minLen : ℕ) (shots : List Shot) : List PhaseSegment :=
  merge_phases minLen (raw_segments shots)

/-- The rally of the spec's worked example:
`[Serve, Attack, Attack, Net, Reset, Reset, Reset]`. -/
def exampleShots : List Shot :=
  [⟨"Serve", true, 1⟩, ⟨"Attack", false, 1⟩, ⟨"Attack", false, 1⟩,
   ⟨"Net", false, 1⟩, ⟨"Reset", false, 1⟩, ⟨"Reset", false, 1⟩, ⟨"Reset", false, 1⟩]

/-- A rally with a serve in the interior on both sides of a single
non-serve shot; the shot between the serves can never be merged. -/
def trappedShots : List Shot :=
  [⟨"Serve", true, 1⟩, ⟨"Attack", false, 1⟩, ⟨"Serve", true, 1⟩]

/-- Structural invariant of phase lists: serve segments are exactly
single serve shots and non-serve segments contain no serve shots. -/
def servesAtomic (segs : List PhaseSegment) : Prop :=
  ∀ seg ∈ segs,
    (seg.serve = true → ∃ sh, seg.shots = [sh] ∧ sh.serve = true) ∧
    (seg.serve = false → ∀ sh ∈ seg.shots, sh.serve = false)

/-- C7: clamping is `clip` with the default caps 0.15 and 4.0; `clip` is
idempotent for every choice of caps and every input, and a raw value of
5.2 seconds clamps to exactly 4.0. -/
theorem clip_idempotent_and_example :
    (∀ lo hi x : ℚ, clip lo hi (clip lo hi x) = clip lo hi x) ∧
    rt_clamped (26 / 5) = 4 := by
  constructor
  · intro lo hi x
    unfold clip
    rcases le_total lo hi with hlh | hlh <;>
      rcases le_total x lo with h1 | h1 <;>
        rcases le_total x hi with h2 | h2 <;>
          simp [min_def, max_def] <;> split_ifs <;> linarith
  · norm_num [rt_clamped, clip, lower_cap, upper_cap, min_def, max_def]

/-- C2 counterexample: with resolved thresholds `p10 = p90 = 1` (as a
single-sample player baseline yields) a value exactly equal to `p90` is
labeled "fast" by the fast branch, not "slow" as the claim states. -/
theorem classify_event_boundary_cex :
    classify_event (some 1) (some 1) (some 1) = some "fast" ∧
    classify_event (some 1) (some 1) (some 1) ≠ some "slow" := by
  constructor <;> decide

/-- C2 (amended): the label follows the inclusive chain
`fast if v ≤ p10 else slow if v ≥ p90 else normal`; a value equal to
`p10` is always labeled "fast"; a value equal to `p90` is labeled
"slow" provided `p10 < p90` (otherwise the fast branch wins); a value
on either boundary is never labeled "normal". -/
theorem classify_event_boundaries (v f s : ℚ) :
    classify_event (some v) (some f) (some s) =
      some (if v ≤ f then "fast" else if s ≤ v then "slow" else "normal") ∧
    (v = f → classify_event (some v) (some f) (some s) = some "fast") ∧
    (f < s → v = s → classify_event (some v) (some f) (some s) = some "slow") ∧
    (v = f ∨ v = s → classify_event (some v) (some f) (some s) ≠ some "normal") := by
  refine ⟨rfl, ?_, ?_, ?_⟩
  · rintro rfl
    simp [classify_event]
  · rintro h rfl
    simp [classify_event, not_le.2 h]
  · rintro (rfl | rfl) <;> simp [classify_event] <;> split_ifs <;> simp

/-- Witness for the amended C2 theorem at `v = p90 = 2`, `p10 = 1`. -/
theorem classify_event_boundaries_witness :
    classify_event (some 2) (some 1) (some 2) = some "slow" :=
  (classify_event_boundaries 2 1 2).2.2.1 (by decide) rfl

/-- C6 counterexample: at `fps = -1` the code divides by the fallback
30.0 and returns 1, while the claimed formula `(frame - opp_prev)/fps`
would give -30; the claim fails for non-positive `fps`. -/
theorem response_time_fps_cex :
    response_time_sec_raw (some 0) 30 (-1) = some 1 ∧
    ((30 : ℚ) - 0) / (-1) = -30 ∧ (1 : ℚ) ≠ -30 := by
  refine ⟨?_, by norm_num, by norm_num⟩
  norm_num [response_time_sec_raw]

/-- C6 (amended): the raw response time is
`(frame - opponent_previous_frame) / fps` for every positive `fps`;
for `fps ≤ 0` the code substitutes 30.0 as the divisor. -/
theorem response_time_formula (g frame : ℤ) (fps : ℚ) :
    (0 < fps →
      response_time_sec_raw (some g) frame fps = some (((frame : ℚ) - (g : ℚ)) / fps)) ∧
    (fps ≤ 0 →
      response_time_sec_raw (some g) frame fps = some (((frame : ℚ) - (g : ℚ)) / 30)) := by
  constructor
  · intro h
    simp [response_time_sec_raw, if_pos h]
  · intro h
    simp [response_time_sec_raw, if_neg (not_lt.2 h)]

/-- Witness for the amended C6 theorem at frame 30, opponent frame 0,
`fps = 3`. -/
theorem response_time_formula_witness :
    response_time_sec_raw (some 0) 30 3 = some ((((30 : ℤ) : ℚ) - ((0 : ℤ) : ℚ)) / 3) :=
  (response_time_formula 0 30 3).1 (by decide)

/-- C8: a shot with no opponent-previous-frame yields a null raw
response time (never zero), is not classified, and its row contributes
nothing to the valid rows that feed baseline construction. -/
theorem missing_opponent_frame_excluded :
    (∀ (frame : ℤ) (fps : ℚ), response_time_sec_raw none frame fps = none) ∧
    (∀ ft st : Option ℚ, classify_event none ft st = none) ∧
    (∀ (pre post : List SampleRow) (r : SampleRow), r.raw = none →
      validRows (pre ++ r :: post) = validRows pre ++ validRows post) := by
  refine ⟨fun _ _ => rfl, ?_, ?_⟩
  · intro ft st
    cases ft <;> cases st <;> rfl
  · intro pre post r h
    simp [validRows, List.filter_append, List.filter_cons, h]

/-- Witness for the C8 theorem: a null-raw row between two lists
disappears from the valid rows. -/
theorem missing_opponent_frame_excluded_witness :
    validRows ([⟨"P0", some 1⟩] ++ (⟨"P1", none⟩ : SampleRow) :: []) =
      validRows [⟨"P0", some 1⟩] ++ validRows [] :=
  missing_opponent_frame_excluded.2.2 [⟨"P0", some 1⟩] [] ⟨"P1", none⟩ rfl

/-- C9: the z-score uses only the player-level family-6 baseline (its
value is unchanged by any modification of the other five tables or of
the resolved family), equals `(v - median) / mad` when the MAD is
non-zero, and is null when the MAD is zero. -/
theorem z_score_guarded (v : ℚ) :
    (∀ st : ComboStats, st.mad = some 0 → z_score_baseline_mad v st = none) ∧
    (∀ (st : ComboStats) (m d : ℚ), st.median = some m → st.mad = some d → d ≠ 0 →
      z_score_baseline_mad v st = some ((v - m) / d)) ∧
    (∀ a b : ChooseArgs, a.baseline_stats = b.baseline_stats → a.player = b.player →
      z_of_event a v = z_of_event b v) := by
  refine ⟨?_, ?_, ?_⟩
  · intro st h
    unfold z_score_baseline_mad
    rw [h]
    cases st.median <;> simp
  · intro st m d h1 h2 h3
    unfold z_score_baseline_mad
    rw [h1, h2]
    simp [h3]
  · intro a b h1 h2
    unfold z_of_event
    rw [h1, h2]

/-- Witness for the C9 theorem: a baseline with MAD zero yields a null
z-score. -/
theorem z_score_guarded_witness :
    z_score_baseline_mad 5 ⟨1, some 1, some 1, some 1, some 0⟩ = none :=
  (z_score_guarded 5).1 ⟨1, some 1, some 1, some 1, some 0⟩ rfl

/-- A successful association-list lookup returns the value of some pair
of the list. -/
theorem lookup_val_mem {β : Type} (t : List (String × β)) (k : String) (b : β)
    (h : t.lookup k = some b) : ∃ pr ∈ t, pr.2 = b := by
  induction t with
  | nil => simp [List.lookup] at h
  | cons hd tl ih =>
    obtain ⟨k1, v1⟩ := hd
    rw [List.lookup] at h
    rcases hbeq : (k == k1) with _ | _
    · rw [hbeq] at h
      obtain ⟨pr, hpr, hval⟩ := ih h
      exact ⟨pr, List.mem_cons_of_mem _ hpr, hval⟩
    · rw [hbeq] at h
      exact ⟨(k1, v1), List.mem_cons_self _ _, by simpa using h⟩

/-- Looking up `p` in a table that maps each key `q` of a list to
`(q, f q)` yields `f p` whenever `p` is in the list. -/
theorem lookup_map_self {β : Type} (ps : List String) (f : String → β) (p : String)
    (h : p ∈ ps) : (ps.map (fun q => (q, f q))).lookup p = some (f p) := by
  induction ps with
  | nil => simp at h
  | cons q qs ih =>
    simp only [List.map_cons]
    rw [List.lookup]
    rcases eq_or_ne p q with rfl | hne
    · simp
    · rw [show (p == q) = false from beq_eq_false_iff_ne.mpr hne]
      exact ih ((List.mem_cons.mp h).resolve_left hne)

/-- A truthy optional float is non-null. -/
theorem pyTruthy_isSome (o : Option ℚ) (h : pyTruthy o = true) : o.isSome = true := by
  cases o with
  | none => simp [pyTruthy] at h
  | some x => rfl

/-- On a well-formed table, the Python truthiness test of a looked-up
stat agrees with the spec's non-null test. -/
theorem tryStat_eq_statNonNull (t : List (String × ComboStats)) (hwf : wfTable t = true)
    (key : String) : tryStat (t.lookup key) = statNonNull (t.lookup key) := by
  cases h : t.lookup key with
  | none => rfl
  | some st =>
    obtain ⟨pr, hmem, hval⟩ := lookup_val_mem t key st h
    have hw := List.all_eq_true.mp hwf pr hmem
    rw [hval, Bool.and_eq_true] at hw
    obtain ⟨hw1, hw2⟩ := hw
    have h10 : pyTruthy st.p10 = st.p10.isSome := by
      cases h10c : st.p10 with
      | none => rfl
      | some x =>
        rw [h10c] at hw1
        have hx : (0 : ℚ) < x := by simpa [wfOpt] using hw1
        simp [pyTruthy, hx.ne']
    have h90 : pyTruthy st.p90 = st.p90.isSome := by
      cases h90c : st.p90 with
      | none => rfl
      | some x =>
        rw [h90c] at hw2
        have hx : (0 : ℚ) < x := by simpa [wfOpt] using hw2
        simp [pyTruthy, hx.ne']
    simp only [tryStat, statNonNull]
    rw [h10, h90]

/-- The guarded quality-family attempt of the code agrees with the
spec's attempt once the bin is known not to be the empty string and the
table is well formed. -/
theorem guardedTry_eq (bin : Option String) (hbin : bin ≠ some "")
    (t : List (String × ComboStats)) (hwf : wfTable t = true) (key : String) :
    (if strTruthy bin && !t.isEmpty then tryStat (t.lookup key) else none) =
      statNonNull (if bin.isSome then t.lookup key else none) := by
  cases hb : bin with
  | none => rfl
  | some s =>
    have hs : s ≠ "" := fun hc => hbin (hc ▸ hb)
    have hT : strTruthy (some s) = true := by simp [strTruthy, hs]
    rw [hT]
    cases t with
    | nil => simp [statNonNull]
    | cons hd tl =>
      simp only [List.isEmpty_cons, Bool.not_false, Bool.and_true, Option.isSome_some, if_true]
      exact tryStat_eq_statNonNull (hd :: tl) hwf key

/-- The key-guarded plain-family attempt of the code agrees with the
spec's attempt once the key is known to be non-empty and the table is
well formed. -/
theorem keyTry_eq (key : String) (hkey : key ≠ "")
    (t : List (String × ComboStats)) (hwf : wfTable t = true) :
    (if !(key == "") then tryStat (t.lookup key) else none) = statNonNull (t.lookup key) := by
  rw [show (key == "") = false from beq_eq_false_iff_ne.mpr hkey]
  simpa using tryStat_eq_statNonNull t hwf key

/-- Under the pipeline invariants (non-empty keys and bins, positive
stored percentiles) every family attempt of the code agrees with the
spec's attempt. -/
theorem codeTry_eq_specTry (a : ChooseArgs)
    (hbin : a.incoming_eff_bin ≠ some "")
    (hck : a.combo_key ≠ "") (hok : a.opp_only_key ≠ "")
    (h1 : wfTable a.combo_stats_q = true) (h2 : wfTable a.opp_only_stats_q = true)
    (h3 : wfTable a.baseline_stats_q = true) (h4 : wfTable a.combo_stats = true)
    (h5 : wfTable a.opp_only_stats = true) (h6 : wfTable a.baseline_stats = true) :
    ∀ k, codeTry a k = specTry a k := by
  intro k
  match k with
  | 0 => exact guardedTry_eq a.incoming_eff_bin hbin a.combo_stats_q h1 _
  | 1 => exact guardedTry_eq a.incoming_eff_bin hbin a.opp_only_stats_q h2 _
  | 2 => exact guardedTry_eq a.incoming_eff_bin hbin a.baseline_stats_q h3 _
  | 3 => exact keyTry_eq a.combo_key hck a.combo_stats h4
  | 4 => exact keyTry_eq a.opp_only_key hok a.opp_only_stats h5
  | 5 => exact tryStat_eq_statNonNull a.baseline_stats h6 a.player
  | (n + 6) => rfl

/-- The cascade returns the payload and name of the first successful
attempt; in particular, when attempt `k` succeeds the selected index is
at most `k`. -/
theorem cascade_mono (t : ℕ → Option (Option ℚ × Option ℚ)) (k : ℕ) (hk : k < 6)
    (h : (t k).isSome = true) :
    ∃ j, j ≤ k ∧ ∃ pr, t j = some pr ∧ (∀ i, i < j → t i = none) ∧
      cascade t = (pr.1, pr.2, famName j) := by
  cases h0 : t 0 with
  | some pr =>
    exact ⟨0, Nat.zero_le k, pr, h0, fun i hi => absurd hi (Nat.not_lt_zero i),
      by simp [cascade, h0]⟩
  | none =>
  cases h1 : t 1 with
  | some pr =>
    refine ⟨1, ?_, pr, h1, ?_, by simp [cascade, h0, h1]⟩
    · by_contra hc
      push_neg at hc
      interval_cases k <;> simp_all
    · intro i hi
      interval_cases i
      exact h0
  | none =>
  cases h2 : t 2 with
  | some pr =>
    refine ⟨2, ?_, pr, h2, ?_, by simp [cascade, h0, h1, h2]⟩
    · by_contra hc
      push_neg at hc
      interval_cases k <;> simp_all
    · intro i hi
      interval_cases i
      · exact h0
      · exact h1
  | none =>
  cases h3 : t 3 with
  | some pr =>
    refine ⟨3, ?_, pr, h3, ?_, by simp [cascade, h0, h1, h2, h3]⟩
    · by_contra hc
      push_neg at hc
      interval_cases k <;> simp_all
    · intro i hi
      interval_cases i
      · exact h0
      · exact h1
      · exact h2
  | none =>
  cases h4 : t 4 with
  | some pr =>
    refine ⟨4, ?_, pr, h4, ?_, by simp [cascade, h0, h1, h2, h3, h4]⟩
    · by_contra hc
      push_neg at hc
      interval_cases k <;> simp_all
    · intro i hi
      interval_cases i
      · exact h0
      · exact h1
      · exact h2
      · exact h3
  | none =>
  cases h5 : t 5 with
  | some pr =>
    refine ⟨5, ?_, pr, h5, ?_, by simp [cascade, h0, h1, h2, h3, h4, h5]⟩
    · by_contra hc
      push_neg at hc
      interval_cases k <;> simp_all
    · intro i hi
      interval_cases i
      · exact h0
      · exact h1
      · exact h2
      · exact h3
      · exact h4
  | none =>
    exfalso
    interval_cases k <;> simp_all

/-- C1: under the pipeline invariants (the quality bin is never the
empty string, the combo and opponent keys are non-empty, stored
percentiles are positive), `choose_threshold_for_event` attempts the six
families in priority order 1 → 2 → 3 → 4 → 5 → 6, consults the
quality-conditioned families only when `incoming_quality_bin` is
non-null, and returns the `(p10, p90, family_name)` of the first family
whose statistic is non-null; whenever family `k` is available, the
selected family index is at most `k` and every earlier family was
unavailable. -/
theorem choose_threshold_fallback_priority (a : ChooseArgs)
    (hbin : a.incoming_eff_bin ≠ some "")
    (hck : a.combo_key ≠ "") (hok : a.opp_only_key ≠ "")
    (hwf : wfTable a.combo_stats_q = true ∧ wfTable a.opp_only_stats_q = true ∧
      wfTable a.baseline_stats_q = true ∧ wfTable a.combo_stats = true ∧
      wfTable a.opp_only_stats = true ∧ wfTable a.baseline_stats = true) :
    ∀ k, k < 6 → (specTry a k).isSome = true →
      ∃ j, j ≤ k ∧ (∀ i, i < j → specTry a i = none) ∧
        ∃ st, specLookup a j = some st ∧ st.p10.isSome = true ∧ st.p90.isSome = true ∧
          choose_threshold_for_event a = (st.p10, st.p90, famName j) := by
  obtain ⟨h1, h2, h3, h4, h5, h6⟩ := hwf
  have heq : ∀ k, codeTry a k = specTry a k :=
    codeTry_eq_specTry a hbin hck hok h1 h2 h3 h4 h5 h6
  intro k hk hsome
  have hk' : (codeTry a k).isSome = true := by rw [heq]; exact hsome
  obtain ⟨j, hjk, pr, hpr, hnone, hcas⟩ := cascade_mono (codeTry a) k hk hk'
  refine ⟨j, hjk, fun i hi => by rw [← heq]; exact hnone i hi, ?_⟩
  have hp' : specTry a j = some pr := by rw [← heq]; exact hpr
  unfold specTry at hp'
  cases hl : specLookup a j with
  | none => rw [hl] at hp'; simp [statNonNull] at hp'
  | some st =>
    rw [hl] at hp'
    simp only [statNonNull] at hp'
    by_cases hb : (st.p10.isSome && st.p90.isSome) = true
    · rw [if_pos hb] at hp'
      obtain rfl : pr = (st.p10, st.p90) := by simpa using hp'.symm
      rw [Bool.and_eq_true] at hb
      exact ⟨st, rfl, hb.1, hb.2, hcas⟩
    · rw [if_neg hb] at hp'
      simp at hp'

/-- Witness for the C1 theorem: with an empty-bin-free event whose only
populated table is the player baseline, family 6 is available and is
selected. -/
theorem choose_threshold_fallback_priority_witness :
    ∃ j, j ≤ 5 ∧
      (∀ i, i < j →
        specTry ⟨none, "ck", "ok", "P0", [], [], [], [], [],
          [("P0", ⟨40, some 1, some 1, some 2, some 1⟩)]⟩ i = none) ∧
      ∃ st, specLookup ⟨none, "ck", "ok", "P0", [], [], [], [], [],
          [("P0", ⟨40, some 1, some 1, some 2, some 1⟩)]⟩ j = some st ∧
        st.p10.isSome = true ∧ st.p90.isSome = true ∧
        choose_threshold_for_event ⟨none, "ck", "ok", "P0", [], [], [], [], [],
          [("P0", ⟨40, some 1, some 1, some 2, some 1⟩)]⟩ = (st.p10, st.p90, famName j) :=
  choose_threshold_fallback_priority
    ⟨none, "ck", "ok", "P0", [], [], [], [], [],
      [("P0", ⟨40, some 1, some 1, some 2, some 1⟩)]⟩
    (by decide) (by decide) (by decide)
    ⟨by decide, by decide, by decide, by decide, by decide, by decide⟩
    5 (by decide) (by decide)

/-- A clamped response time is positive (it is at least the default
lower cap 0.15). -/
theorem rt_clamped_pos (x : ℚ) : 0 < rt_clamped x := by
  unfold rt_clamped clip lower_cap upper_cap
  rw [lt_min_iff]
  exact ⟨by norm_num, lt_max_of_lt_left (by norm_num)⟩

/-- The linear-interpolation percentile of a non-empty list of positive
values is positive, for any percentile rank between 0 and 100. -/
theorem percentile_pos (values : List ℚ) (p : ℚ) (hne : values ≠ [])
    (hp0 : 0 ≤ p) (hp1 : p ≤ 100) (hpos : ∀ x ∈ values, 0 < x) :
    0 < percentile values p := by
  simp only [percentile]
  set s := values.mergeSort (fun a b => decide (a ≤ b)) with hs
  have hperm : s.Perm values := List.mergeSort_perm values _
  have hlen : s.length = values.length := hperm.length_eq
  have hsne : s.length ≠ 0 := by
    intro hnil
    exact hne (List.length_eq_zero.mp (hlen ▸ hnil))
  rw [if_neg hsne]
  have hn : 0 < s.length := Nat.pos_of_ne_zero hsne
  have hn1 : (1 : ℚ) ≤ (s.length : ℚ) := by exact_mod_cast hn
  set h : ℚ := (p / 100) * ((s.length : ℚ) - 1) with hh
  have hh0 : 0 ≤ h := mul_nonneg (div_nonneg hp0 (by norm_num)) (by linarith)
  have hh1 : h ≤ (s.length : ℚ) - 1 := by
    have hp100 : p / 100 ≤ 1 := (div_le_one (by norm_num)).mpr hp1
    calc h = (p / 100) * ((s.length : ℚ) - 1) := hh
    _ ≤ 1 * ((s.length : ℚ) - 1) := mul_le_mul_of_nonneg_right hp100 (by linarith)
    _ = (s.length : ℚ) - 1 := one_mul _
  have hfl0 : 0 ≤ ⌊h⌋ := Int.floor_nonneg.mpr hh0
  have hfl1 : ⌊h⌋ ≤ (s.length : ℤ) - 1 := by
    have hq : (⌊h⌋ : ℚ) ≤ (s.length : ℚ) - 1 := le_trans (Int.floor_le h) hh1
    exact_mod_cast hq
  have hkdef : min (⌊h⌋.toNat) (s.length - 1) = ⌊h⌋.toNat := by
    apply min_eq_left
    omega
  have hkh : ((min (⌊h⌋.toNat) (s.length - 1) : ℕ) : ℚ) ≤ h := by
    rw [hkdef]
    have hcast : ((⌊h⌋.toNat : ℕ) : ℚ) = ((⌊h⌋ : ℤ) : ℚ) := by
      exact_mod_cast Int.toNat_of_nonneg hfl0
    rw [hcast]
    exact Int.floor_le h
  have hklt : min (⌊h⌋.toNat) (s.length - 1) < s.length := by
    rw [hkdef]
    omega
  have hget : ∀ (m : ℕ) (hm : m < s.length), s.getD m 0 = s.get ⟨m, hm⟩ := by
    intro m hm
    rw [List.getD_eq_getElem?_getD, List.getElem?_eq_getElem hm]
    rfl
  have hmem_pos : ∀ (m : ℕ) (hm : m < s.length), 0 < s.get ⟨m, hm⟩ := by
    intro m hm
    exact hpos _ (hperm.mem_iff.mp (List.get_mem s m hm))
  have hsorted : List.Sorted (· ≤ ·) s := by
    have hpw := @List.sorted_mergeSort ℚ (fun a b : ℚ => decide (a ≤ b))
      (fun a b c hab hbc => by
        simp only [decide_eq_true_eq] at hab hbc ⊢
        exact le_trans hab hbc)
      (fun a b => by
        simp only [Bool.or_eq_true, decide_eq_true_eq]
        exact le_total a b)
      values
    exact List.Pairwise.imp (fun hab => by simpa using hab) hpw
  rcases Nat.lt_or_ge (min (⌊h⌋.toNat) (s.length - 1) + 1) s.length with hj | hj
  · have hjdef : min (min (⌊h⌋.toNat) (s.length - 1) + 1) (s.length - 1)
        = min (⌊h⌋.toNat) (s.length - 1) + 1 := min_eq_left (by omega)
    rw [hjdef, hget _ hklt, hget _ hj]
    have ha := hmem_pos _ hklt
    have hab : s.get ⟨min (⌊h⌋.toNat) (s.length - 1), hklt⟩
        ≤ s.get ⟨min (⌊h⌋.toNat) (s.length - 1) + 1, hj⟩ :=
      hsorted.rel_get_of_lt (by simp [Fin.lt_def])
    have hprod : 0 ≤ (h - ((min (⌊h⌋.toNat) (s.length - 1) : ℕ) : ℚ)) *
        (s.get ⟨min (⌊h⌋.toNat) (s.length - 1) + 1, hj⟩
          - s.get ⟨min (⌊h⌋.toNat) (s.length - 1), hklt⟩) :=
      mul_nonneg (by linarith) (by linarith)
    linarith
  · have hjdef : min (min (⌊h⌋.toNat) (s.length - 1) + 1) (s.length - 1)
        = min (⌊h⌋.toNat) (s.length - 1) := by
      omega
    rw [hjdef, hget _ hklt]
    have ha := hmem_pos _ hklt
    have hz : s.get ⟨min (⌊h⌋.toNat) (s.length - 1), hklt⟩
        - s.get ⟨min (⌊h⌋.toNat) (s.length - 1), hklt⟩ = 0 := sub_self _
    rw [hz, mul_zero, add_zero]
    exact ha

/-- The p10 and p90 of `compute_stats` on a non-empty list of positive
values are truthy. -/
theorem compute_stats_truthy (values : List ℚ) (hne : values ≠ [])
    (hpos : ∀ x ∈ values, 0 < x) :
    pyTruthy (compute_stats values).p10 = true ∧ pyTruthy (compute_stats values).p90 = true := by
  have h10 := percentile_pos values 10 hne (by norm_num) (by norm_num) hpos
  have h90 := percentile_pos values 90 hne (by norm_num) (by norm_num) hpos
  constructor
  · simp [compute_stats, pyTruthy, h10.ne']
  · simp [compute_stats, pyTruthy, h90.ne']

/-- Every value of a player's clamped sample list is positive. -/
theorem playerValues_pos (rows : List SampleRow) (p : String) :
    ∀ x ∈ playerValues rows p, 0 < x := by
  intro x hx
  obtain ⟨r, hr, rfl⟩ := List.mem_map.mp hx
  exact rt_clamped_pos _

/-- A player with at least one valid sample has an entry in the family-6
baseline table, holding the statistics of that player's clamped values. -/
theorem build_baseline_lookup (rows : List SampleRow) (p : String)
    (h : playerValues rows p ≠ []) :
    (build_baseline_stats rows).lookup p = some (compute_stats (playerValues rows p)) := by
  apply lookup_map_self
  rw [List.mem_dedup]
  have hf : (validRows rows).filter (fun r => r.player == p) ≠ [] := by
    intro hnil
    apply h
    unfold playerValues
    rw [hnil]
    rfl
  obtain ⟨r, hr⟩ := List.exists_mem_of_ne_nil _ hf
  obtain ⟨hrv, hrp⟩ := List.mem_filter.mp hr
  exact List.mem_map.mpr ⟨r, hrv, eq_of_beq hrp⟩

/-- Every successful family attempt of the code carries non-null
thresholds in its payload. -/
theorem codeTry_payload (a : ChooseArgs) (k : ℕ) (pr : Option ℚ × Option ℚ)
    (h : codeTry a k = some pr) : pr.1.isSome = true ∧ pr.2.isSome = true := by
  have htry : ∀ o, tryStat o = some pr → pr.1.isSome = true ∧ pr.2.isSome = true := by
    intro o ho
    cases o with
    | none => simp [tryStat] at ho
    | some st =>
      simp only [tryStat] at ho
      by_cases hb : (pyTruthy st.p10 && pyTruthy st.p90) = true
      · rw [if_pos hb] at ho
        obtain rfl : pr = (st.p10, st.p90) := by simpa using ho.symm
        rw [Bool.and_eq_true] at hb
        exact ⟨pyTruthy_isSome _ hb.1, pyTruthy_isSome _ hb.2⟩
      · rw [if_neg hb] at ho
        simp at ho
  match k with
  | 0 =>
    simp only [codeTry] at h
    split at h
    · exact htry _ h
    · simp at h
  | 1 =>
    simp only [codeTry] at h
    split at h
    · exact htry _ h
    · simp at h
  | 2 =>
    simp only [codeTry] at h
    split at h
    · exact htry _ h
    · simp at h
  | 3 =>
    simp only [codeTry] at h
    split at h
    · exact htry _ h
    · simp at h
  | 4 =>
    simp only [codeTry] at h
    split at h
    · exact htry _ h
    · simp at h
  | 5 => exact htry _ h
  | (n + 6) => simp [codeTry] at h

/-- Family names of the six real families are never the sentinel
`"none"`. -/
theorem famName_ne_none (j : ℕ) (hj : j ≤ 5) : famName j ≠ "none" := by
  interval_cases j <;> decide

/-- C3: for every sample whose player has at least one valid sample,
threshold selection resolves to a real family (source never `"none"`),
both thresholds are non-null, and classification of any value produces
a non-null label; family 6 built from the player's samples is
unconditionally available, so the "no threshold" outcome is
unreachable. -/
theorem classification_always_resolves (rows : List SampleRow) (p : String)
    (h : playerValues rows p ≠ []) (bin : Option String) (ck ok : String)
    (t1 t2 t3 t4 t5 : List (String × ComboStats)) (v : ℚ) :
    (choose_threshold_for_event
        ⟨bin, ck, ok, p, t1, t2, t3, t4, t5, build_baseline_stats rows⟩).2.2 ≠ "none" ∧
    (choose_threshold_for_event
        ⟨bin, ck, ok, p, t1, t2, t3, t4, t5, build_baseline_stats rows⟩).1.isSome = true ∧
    (choose_threshold_for_event
        ⟨bin, ck, ok, p, t1, t2, t3, t4, t5, build_baseline_stats rows⟩).2.1.isSome = true ∧
    (classify_event (some v)
        (choose_threshold_for_event
          ⟨bin, ck, ok, p, t1, t2, t3, t4, t5, build_baseline_stats rows⟩).1
        (choose_threshold_for_event
          ⟨bin, ck, ok, p, t1, t2, t3, t4, t5, build_baseline_stats rows⟩).2.1).isSome
      = true := by
  set a : ChooseArgs := ⟨bin, ck, ok, p, t1, t2, t3, t4, t5, build_baseline_stats rows⟩ with ha
  have hlookup : a.baseline_stats.lookup a.player
      = some (compute_stats (playerValues rows p)) :=
    build_baseline_lookup rows p h
  have hpos := compute_stats_truthy (playerValues rows p) h (playerValues_pos rows p)
  have h5some : (codeTry a 5).isSome = true := by
    simp only [codeTry]
    rw [hlookup]
    simp only [tryStat, hpos.1, hpos.2, Bool.and_self, if_true, Option.isSome_some]
  obtain ⟨j, hj5, pr, hpr, hnone, hcas⟩ := cascade_mono (codeTry a) 5 (by norm_num) h5some
  have hpay := codeTry_payload a j pr hpr
  have hchoose : choose_threshold_for_event a = (pr.1, pr.2, famName j) := hcas
  refine ⟨?_, ?_, ?_, ?_⟩
  · rw [hchoose]
    exact famName_ne_none j hj5
  · rw [hchoose]
    exact hpay.1
  · rw [hchoose]
    exact hpay.2
  · rw [hchoose]
    obtain ⟨x, hx⟩ := Option.isSome_iff_exists.mp hpay.1
    obtain ⟨y, hy⟩ := Option.isSome_iff_exists.mp hpay.2
    simp only [hx, hy, classify_event, Option.isSome_some]

/-- Raw segmentation covers exactly the input shots, in order. -/
theorem raw_join (shots : List Shot) : joinShots (raw_segments shots) = shots := by
  induction shots with
  | nil => rfl
  | cons sh rest ih =>
    by_cases hserve : sh.serve
    · simp only [raw_segments, if_pos hserve]
      show sh :: joinShots (raw_segments rest) = sh :: rest
      rw [ih]
    · simp only [raw_segments, if_neg hserve]
      cases hr : raw_segments rest with
      | nil =>
        have hrest : rest = [] := by rw [← ih, hr]; rfl
        subst hrest
        rfl
      | cons seg segs =>
        simp only [pushShot]
        by_cases hguard : (seg.serve || !(seg.category == sh.cat)) = true
        · rw [if_pos hguard]
          show sh :: joinShots (seg :: segs) = sh :: rest
          rw [← hr, ih]
        · rw [if_neg hguard]
          show (sh :: seg.shots) ++ (segs.map PhaseSegment.shots).flatten = sh :: rest
          have : seg.shots ++ (segs.map PhaseSegment.shots).flatten = joinShots (seg :: segs) := rfl
          rw [List.cons_append, this, ← hr, ih]

/-- Raw segmentation satisfies the serve-atomicity invariant. -/
theorem raw_atomic (shots : List Shot) : servesAtomic (raw_segments shots) := by
  induction shots with
  | nil => intro seg hseg; simp [raw_segments] at hseg
  | cons sh rest ih =>
    intro seg hseg
    by_cases hserve : sh.serve
    · rw [raw_segments, if_pos hserve] at hseg
      rcases List.mem_cons.mp hseg with rfl | hmem
      · exact ⟨fun _ => ⟨sh, rfl, hserve⟩, fun hfalse => by simp at hfalse⟩
      · exact ih seg hmem
    · rw [raw_segments, if_neg hserve] at hseg
      cases hr : raw_segments rest with
      | nil =>
        rw [hr] at hseg
        simp only [pushShot] at hseg
        rcases List.mem_cons.mp hseg with rfl | hmem
        · refine ⟨fun htrue => by simp at htrue, fun _ sh2 hsh2 => ?_⟩
          rcases List.mem_singleton.mp hsh2 with rfl
          simpa using hserve
        · simp at hmem
      | cons seg0 segs0 =>
        rw [hr] at hseg
        simp only [pushShot] at hseg
        by_cases hguard : (seg0.serve || !(seg0.category == sh.cat)) = true
        · rw [if_pos hguard] at hseg
          rcases List.mem_cons.mp hseg with rfl | hmem
          · refine ⟨fun htrue => by simp at htrue, fun _ sh2 hsh2 => ?_⟩
            rcases List.mem_singleton.mp hsh2 with rfl
            simpa using hserve
          · exact ih seg (hr ▸ hmem)
        · rw [if_neg hguard] at hseg
          rcases List.mem_cons.mp hseg with rfl | hmem
          · refine ⟨fun htrue => by simp at htrue, fun _ sh2 hsh2 => ?_⟩
            rcases List.mem_cons.mp hsh2 with rfl | hsh2
            · simpa using hserve
            · have hseg0 := ih seg0 (hr ▸ List.mem_cons_self seg0 segs0)
              have hns : seg0.serve = false := by
                rcases Bool.or_eq_false_iff.mp (Bool.not_eq_true _ ▸ hguard) with ⟨h1, _⟩
                · exact h1
              exact hseg0.2 hns sh2 hsh2
          · exact ih seg (hr ▸ List.mem_cons_of_mem seg0 hmem)


/-- A merge candidate at an index is the non-serve segment stored there. -/
theorem nbAt_some (segs : List PhaseSegment) (idx : ℕ) (nb : PhaseSegment)
    (h : nbAt segs idx = some nb) : segs[idx]? = some nb ∧ nb.serve = false := by
  unfold nbAt at h
  cases hg : segs[idx]? with
  | none => simp [hg] at h
  | some s =>
    simp only [hg] at h
    by_cases hs : s.serve = true
    · simp [hs] at h
    · rw [Bool.not_eq_true] at hs
      simp [hs] at h
      subst h
      exact ⟨rfl, hs⟩

/-- When a candidate is absent, the slot is empty or holds a serve. -/
theorem nbAt_none (segs : List PhaseSegment) (idx : ℕ)
    (h : nbAt segs idx = none) :
    segs[idx]? = none ∨ ∃ s, segs[idx]? = some s ∧ s.serve = true := by
  unfold nbAt at h
  cases hg : segs[idx]? with
  | none => exact Or.inl rfl
  | some s =>
    by_cases hs : s.serve = true
    · exact Or.inr ⟨s, rfl, hs⟩
    · simp [hg, hs] at h

/-- A chosen merge target is an adjacent non-serve segment: either the
following one or (for a non-leading index) the preceding one. -/
theorem mergeTarget_cases (segs : List PhaseSegment) (i j : ℕ)
    (h : mergeTarget segs i = some j) :
    (j = i + 1 ∧ ∃ nb, segs[i+1]? = some nb ∧ nb.serve = false) ∨
    (j = i - 1 ∧ i ≠ 0 ∧ ∃ nb, segs[i-1]? = some nb ∧ nb.serve = false) := by
  unfold mergeTarget at h
  cases hp : (if i = 0 then none else nbAt segs (i - 1)) with
  | none =>
    rw [hp] at h
    cases hn : nbAt segs (i + 1) with
    | none => simp [hn] at h
    | some nb =>
      simp only [hn] at h
      obtain rfl : i + 1 = j := by simpa using h
      obtain ⟨hg, hserve⟩ := nbAt_some segs (i + 1) nb hn
      exact Or.inl ⟨rfl, nb, hg, hserve⟩
  | some p =>
    rw [hp] at h
    have hi0 : i ≠ 0 := by
      intro hz
      rw [if_pos hz] at hp
      simp at hp
    rw [if_neg hi0] at hp
    obtain ⟨hgp, hservep⟩ := nbAt_some segs (i - 1) p hp
    cases hn : nbAt segs (i + 1) with
    | none =>
      simp only [hn] at h
      obtain rfl : i - 1 = j := by simpa using h
      exact Or.inr ⟨rfl, hi0, p, hgp, hservep⟩
    | some nb =>
      simp only [hn] at h
      obtain ⟨hgn, hserven⟩ := nbAt_some segs (i + 1) nb hn
      by_cases hcmp : segCount p ≤ segCount nb
      · obtain rfl : i + 1 = j := by simpa [hcmp] using h
        exact Or.inl ⟨rfl, nb, hgn, hserven⟩
      · obtain rfl : i - 1 = j := by simpa [hcmp] using h
        exact Or.inr ⟨rfl, hi0, p, hgp, hservep⟩

/-- Decompose a list around two adjacent stored elements. -/
theorem decomp_adjacent {α : Type} (l : List α) (i : ℕ) (x y : α)
    (hx : l[i]? = some x) (hy : l[i+1]? = some y) :
    l = l.take i ++ x :: y :: l.drop (i + 2) := by
  obtain ⟨hi, hxe⟩ := List.getElem?_eq_some.mp hx
  obtain ⟨hi1, hye⟩ := List.getElem?_eq_some.mp hy
  conv_lhs => rw [← List.take_append_drop i l]
  congr 1
  rw [List.drop_eq_getElem_cons hi, hxe, List.drop_eq_getElem_cons hi1, hye]

/-- The projections of a mergeable index. -/
theorem isMergeable_elim (minLen : ℕ) (segs : List PhaseSegment) (i : ℕ)
    (hm : isMergeable minLen segs i = true) :
    ∃ short, segs[i]? = some short ∧ short.serve = false ∧
      segCount short < minLen ∧ (mergeTarget segs i).isSome = true := by
  unfold isMergeable at hm
  cases hg : segs[i]? with
  | none => simp [hg] at hm
  | some s =>
    simp only [hg, Bool.and_eq_true, Bool.not_eq_true'] at hm
    obtain ⟨⟨h1, h2⟩, h3⟩ := hm
    exact ⟨s, rfl, h1, by simpa using h2, h3⟩

/-- A merge replaces two adjacent non-serve segments by one whose shot
range is their concatenation; nothing else changes. -/
theorem applyMerge_decomp (minLen : ℕ) (segs : List PhaseSegment) (i : ℕ)
    (hm : isMergeable minLen segs i = true) :
    ∃ pre post x y m,
      segs = pre ++ x :: y :: post ∧
      applyMerge segs i = pre ++ m :: post ∧
      m.shots = x.shots ++ y.shots ∧
      m.serve = false ∧ x.serve = false ∧ y.serve = false := by
  obtain ⟨short, hshort, hss, hcnt, htgt⟩ := isMergeable_elim minLen segs i hm
  obtain ⟨j, hj⟩ := Option.isSome_iff_exists.mp htgt
  rcases mergeTarget_cases segs i j hj with ⟨rfl, nb, hnb, hnbs⟩ | ⟨rfl, hi0, nb, hnb, hnbs⟩
  · refine ⟨segs.take i, segs.drop (i + 2), short, nb, mergedSeg short nb true,
      decomp_adjacent segs i short nb hshort hnb, ?_, by simp [mergedSeg], rfl, hss, hnbs⟩
    unfold applyMerge
    simp only [hshort, hj]
    simp [hnb]
  · obtain ⟨i', rfl⟩ : ∃ i', i = i' + 1 := ⟨i - 1, by omega⟩
    have hnb' : segs[i']? = some nb := by simpa using hnb
    refine ⟨segs.take i', segs.drop (i' + 2), nb, short, mergedSeg short nb false,
      decomp_adjacent segs i' nb short hnb' hshort, ?_, by simp [mergedSeg], rfl, hnbs, hss⟩
    unfold applyMerge
    simp only [hshort, hj]
    rw [if_neg (by omega)]
    simp [Nat.add_sub_cancel, hnb']

/-- A result of the selection fold is its start or one of the candidates. -/
theorem pickBetter_foldl_mem (segs : List PhaseSegment) (l : List ℕ) (init : Option ℕ) (r : ℕ)
    (h : l.foldl (pickBetter segs) init = some r) : init = some r ∨ r ∈ l := by
  induction l generalizing init with
  | nil => exact Or.inl h
  | cons x xs ih =>
    rcases ih (pickBetter segs init x) h with hin | hmem
    · cases init with
      | none =>
        obtain rfl : x = r := by simpa [pickBetter] using hin
        exact Or.inr (List.mem_cons_self x xs)
      | some jj =>
        simp only [pickBetter] at hin
        by_cases hc : cntAt segs x < cntAt segs jj
        · rw [if_pos hc] at hin
          obtain rfl : x = r := by simpa using hin
          exact Or.inr (List.mem_cons_self x xs)
        · rw [if_neg hc] at hin
          exact Or.inl hin
    · exact Or.inr (List.mem_cons_of_mem x hmem)

/-- The selection fold never drops back to `none`. -/
theorem pickBetter_foldl_some (segs : List PhaseSegment) (l : List ℕ) (j : ℕ) :
    ∃ r, l.foldl (pickBetter segs) (some j) = some r := by
  induction l generalizing j with
  | nil => exact ⟨j, rfl⟩
  | cons x xs ih =>
    show ∃ r, xs.foldl (pickBetter segs) (pickBetter segs (some j) x) = some r
    simp only [pickBetter]
    by_cases hc : cntAt segs x < cntAt segs j
    · rw [if_pos hc]
      exact ih x
    · rw [if_neg hc]
      exact ih j

/-- A picked index is mergeable. -/
theorem pick_isMergeable (minLen : ℕ) (segs : List PhaseSegment) (i : ℕ)
    (h : pickMergeable minLen segs = some i) : isMergeable minLen segs i = true := by
  unfold pickMergeable at h
  rcases pickBetter_foldl_mem segs _ none i h with hin | hmem
  · simp at hin
  · exact (List.mem_filter.mp hmem).2

/-- When nothing is picked, nothing is mergeable. -/
theorem pick_none (minLen : ℕ) (segs : List PhaseSegment)
    (h : pickMergeable minLen segs = none) : ∀ i, isMergeable minLen segs i = false := by
  intro i
  by_contra hc
  rw [Bool.not_eq_false] at hc
  have hi : i < segs.length := by
    obtain ⟨short, hshort, -⟩ := isMergeable_elim minLen segs i hc
    obtain ⟨hlt, -⟩ := List.getElem?_eq_some.mp hshort
    exact hlt
  have hmem : i ∈ (List.range segs.length).filter (fun k => isMergeable minLen segs k) :=
    List.mem_filter.mpr ⟨List.mem_range.mpr hi, hc⟩
  unfold pickMergeable at h
  cases hf : (List.range segs.length).filter (fun k => isMergeable minLen segs k) with
  | nil => rw [hf] at hmem; simp at hmem
  | cons y ys =>
    rw [hf] at h
    have hsome : ∃ r, (y :: ys).foldl (pickBetter segs) none = some r := by
      show ∃ r, ys.foldl (pickBetter segs) (pickBetter segs none y) = some r
      exact pickBetter_foldl_some segs ys y
    obtain ⟨r, hr⟩ := hsome
    rw [h] at hr
    simp at hr

/-- One merge shortens the segment list by exactly one. -/
theorem applyMerge_length (minLen : ℕ) (segs : List PhaseSegment) (i : ℕ)
    (hm : isMergeable minLen segs i = true) :
    (applyMerge segs i).length + 1 = segs.length := by
  obtain ⟨pre, post, x, y, m, hdec, happ, -, -, -, -⟩ := applyMerge_decomp minLen segs i hm
  rw [happ, hdec]
  simp
  omega

/-- One merge preserves the covered shots. -/
theorem applyMerge_join (minLen : ℕ) (segs : List PhaseSegment) (i : ℕ)
    (hm : isMergeable minLen segs i = true) :
    joinShots (applyMerge segs i) = joinShots segs := by
  obtain ⟨pre, post, x, y, m, hdec, happ, hshots, -, -, -⟩ := applyMerge_decomp minLen segs i hm
  rw [happ, hdec]
  simp [joinShots, hshots]

/-- One merge leaves the sublist of serve segments untouched. -/
theorem applyMerge_filter (minLen : ℕ) (segs : List PhaseSegment) (i : ℕ)
    (hm : isMergeable minLen segs i = true) :
    (applyMerge segs i).filter (fun s => s.serve) = segs.filter (fun s => s.serve) := by
  obtain ⟨pre, post, x, y, m, hdec, happ, -, hms, hxs, hys⟩ := applyMerge_decomp minLen segs i hm
  rw [happ, hdec]
  simp [List.filter_append, List.filter_cons, hms, hxs, hys]

/-- One merge preserves serve-atomicity. -/
theorem applyMerge_atomic (minLen : ℕ) (segs : List PhaseSegment) (i : ℕ)
    (hm : isMergeable minLen segs i = true) (hA : servesAtomic segs) :
    servesAtomic (applyMerge segs i) := by
  obtain ⟨pre, post, x, y, m, hdec, happ, hshots, hms, hxs, hys⟩ := applyMerge_decomp minLen segs i hm
  rw [happ]
  intro seg hseg
  rcases List.mem_append.mp hseg with hpre | hrest
  · exact hA seg (hdec ▸ List.mem_append_left _ hpre)
  · rcases List.mem_cons.mp hrest with rfl | hpost
    · refine ⟨fun htrue => by rw [hms] at htrue; simp at htrue, fun _ sh hsh => ?_⟩
      rw [hshots] at hsh
      rcases List.mem_append.mp hsh with hx | hy
      · exact (hA x (hdec ▸ List.mem_append_right _ (List.mem_cons_self _ _))).2 hxs sh hx
      · exact (hA y (hdec ▸ List.mem_append_right _
          (List.mem_cons_of_mem _ (List.mem_cons_self _ _)))).2 hys sh hy
    · exact hA seg (hdec ▸ List.mem_append_right _
        (List.mem_cons_of_mem _ (List.mem_cons_of_mem _ hpost)))

/-- The merge loop preserves any property preserved by single merges. -/
theorem mergePass_preserve (minLen : ℕ) (P : List PhaseSegment → Prop)
    (hstep : ∀ segs i, isMergeable minLen segs i = true → P segs → P (applyMerge segs i)) :
    ∀ (fuel : ℕ) (segs : List PhaseSegment), P segs → P (mergePass minLen fuel segs) := by
  intro fuel
  induction fuel with
  | zero => exact fun segs hP => hP
  | succ f ih =>
    intro segs hP
    show P (match pickMergeable minLen segs with
      | none => segs
      | some i => mergePass minLen f (applyMerge segs i))
    cases hp : pickMergeable minLen segs with
    | none => exact hP
    | some i => exact ih _ (hstep segs i (pick_isMergeable minLen segs i hp) hP)

/-- With enough fuel the merge loop reaches a fixed point: nothing
mergeable remains. -/
theorem mergePass_fix (minLen : ℕ) :
    ∀ (fuel : ℕ) (segs : List PhaseSegment), segs.length ≤ fuel + 1 →
      pickMergeable minLen (mergePass minLen fuel segs) = none := by
  intro fuel
  induction fuel with
  | zero =>
    intro segs hlen
    show pickMergeable minLen segs = none
    cases hp : pickMergeable minLen segs with
    | none => rfl
    | some i =>
      obtain ⟨pre, post, x, y, m, hdec, -, -, -, -, -⟩ :=
        applyMerge_decomp minLen segs i (pick_isMergeable minLen segs i hp)
      rw [hdec] at hlen
      simp at hlen
      omega
  | succ f ih =>
    intro segs hlen
    show pickMergeable minLen (match pickMergeable minLen segs with
      | none => segs
      | some i => mergePass minLen f (applyMerge segs i)) = none
    cases hp : pickMergeable minLen segs with
    | none => exact hp
    | some i =>
      apply ih
      have := applyMerge_length minLen segs i (pick_isMergeable minLen segs i hp)
      omega

/-- Total shot count equals the length of the covered shot list. -/
theorem totalShots_eq_join (segs : List PhaseSegment) :
    totalShots segs = (joinShots segs).length := by
  simp only [totalShots, joinShots, List.length_flatten, List.map_map]
  rfl

/-- C4 counterexample: on the rally `[Serve, Attack, Serve]` with
`min_phase_length = 2` the merge pass terminates with the one-shot
Attack segment still in interior position 1 (its two neighbors are
serve segments, which are never merge candidates), so the claimed
invariant fails as stated. -/
theorem merge_invariant_cex :
    (phase_segments 2 trappedShots).length = 3 ∧
    (phase_segments 2 trappedShots)[1]? = some ⟨[⟨"Attack", false, 1⟩], "Attack", false⟩ ∧
    (⟨[⟨"Attack", false, 1⟩], "Attack", false⟩ : PhaseSegment).serve = false ∧
    segCount ⟨[⟨"Attack", false, 1⟩], "Attack", false⟩ < 2 := by
  refine ⟨rfl, rfl, rfl, by decide⟩

/-- C4 (amended): after the merge pass, the total shot count across
segments equals the rally's shot count, and every non-serve segment not
in first or last position either has `shot_count ≥ min_phase_length` or
is trapped between two serve segments (its only neighbors are serves,
which are never merge candidates). -/
theorem merge_invariant_amended (shots : List Shot) (minLen : ℕ) :
    totalShots (phase_segments minLen shots) = shots.length ∧
    (∀ (i : ℕ) (seg : PhaseSegment), 0 < i → i + 1 < (phase_segments minLen shots).length →
      (phase_segments minLen shots)[i]? = some seg → seg.serve = false →
      minLen ≤ segCount seg ∨
      (∃ pSeg nSeg, (phase_segments minLen shots)[i-1]? = some pSeg ∧
        (phase_segments minLen shots)[i+1]? = some nSeg ∧
        pSeg.serve = true ∧ nSeg.serve = true)) := by
  constructor
  · have hjoin : joinShots (phase_segments minLen shots) = shots := by
      exact mergePass_preserve minLen (fun segs => joinShots segs = shots)
        (fun segs i hm hP => by
          show joinShots (applyMerge segs i) = shots
          rw [applyMerge_join minLen segs i hm]
          exact hP)
        (raw_segments shots).length (raw_segments shots) (raw_join shots)
    rw [totalShots_eq_join, hjoin]
  · intro i seg h0i hi1 hseg hns
    have hfix : pickMergeable minLen (phase_segments minLen shots) = none :=
      mergePass_fix minLen (raw_segments shots).length (raw_segments shots) (by omega)
    have hnm := pick_none minLen (phase_segments minLen shots) hfix i
    unfold isMergeable at hnm
    simp only [hseg, hns, Bool.not_false, Bool.true_and, Bool.and_eq_false_iff] at hnm
    rcases hnm with hcnt | htgt
    · left
      have : ¬ segCount seg < minLen := by simpa using hcnt
      omega
    · right
      have htgtnone : mergeTarget (phase_segments minLen shots) i = none :=
        Option.not_isSome_iff_eq_none.mp (by simp [htgt])
      have hi0 : i ≠ 0 := by omega
      have hiprev : i - 1 < (phase_segments minLen shots).length := by omega
      have hinext : i + 1 < (phase_segments minLen shots).length := hi1
      unfold mergeTarget at htgtnone
      rw [if_neg hi0] at htgtnone
      cases hp : nbAt (phase_segments minLen shots) (i - 1) with
      | some p =>
        rw [hp] at htgtnone
        cases hn : nbAt (phase_segments minLen shots) (i + 1) with
        | none => simp [hn] at htgtnone
        | some q =>
          rw [hn] at htgtnone
          by_cases hc : segCount p ≤ segCount q
          · simp [hc] at htgtnone
          · simp [hc] at htgtnone
      | none =>
        cases hn : nbAt (phase_segments minLen shots) (i + 1) with
        | some q => rw [hp, hn] at htgtnone; simp at htgtnone
        | none =>
          rcases nbAt_none _ _ hp with hnone | ⟨pSeg, hpg, hpserve⟩
          · rw [List.getElem?_eq_getElem hiprev] at hnone
            simp at hnone
          · rcases nbAt_none _ _ hn with hnone | ⟨nSeg, hng, hnserve⟩
            · rw [List.getElem?_eq_getElem hinext] at hnone
              simp at hnone
            · exact ⟨pSeg, nSeg, hpg, hng, hpserve, hnserve⟩

/-- Witness for the amended C4 theorem on the spec's worked example:
seven shots are conserved across the three final phases. -/
theorem merge_invariant_amended_witness :
    totalShots (phase_segments 2 exampleShots) = exampleShots.length :=
  (merge_invariant_amended exampleShots 2).1

/-- C5: a serve shot always forms its own raw segment of length one and
non-serve raw segments contain no serve shots; the merge pass leaves
the sublist of serve segments (with their shot ranges) untouched, keeps
covering exactly the rally's shots in order, and never lets a serve
shot be absorbed into a non-serve segment — so the two segments on
opposite sides of a serve segment are never merged with each other. -/
theorem serve_immovability :
    (∀ (shots : List Shot), ∀ seg ∈ raw_segments shots, seg.serve = true →
      ∃ sh, seg.shots = [sh] ∧ sh.serve = true) ∧
    (∀ (shots : List Shot), ∀ seg ∈ raw_segments shots, seg.serve = false →
      ∀ sh ∈ seg.shots, sh.serve = false) ∧
    (∀ (minLen : ℕ) (shots : List Shot),
      (phase_segments minLen shots).filter (fun s => s.serve)
        = (raw_segments shots).filter (fun s => s.serve)) ∧
    (∀ (minLen : ℕ) (shots : List Shot),
      joinShots (phase_segments minLen shots) = shots) ∧
    (∀ (minLen : ℕ) (shots : List Shot), ∀ seg ∈ phase_segments minLen shots,
      seg.serve = false → ∀ sh ∈ seg.shots, sh.serve = false) := by
  refine ⟨?_, ?_, ?_, ?_, ?_⟩
  · intro shots seg hseg hserve
    exact (raw_atomic shots seg hseg).1 hserve
  · intro shots seg hseg hserve
    exact (raw_atomic shots seg hseg).2 hserve
  · intro minLen shots
    exact mergePass_preserve minLen
      (fun segs => segs.filter (fun s => s.serve)
        = (raw_segments shots).filter (fun s => s.serve))
      (fun segs i hm hP => by
        show (applyMerge segs i).filter (fun s => s.serve)
          = (raw_segments shots).filter (fun s => s.serve)
        rw [applyMerge_filter minLen segs i hm]
        exact hP)
      (raw_segments shots).length (raw_segments shots) rfl
  · intro minLen shots
    exact mergePass_preserve minLen (fun segs => joinShots segs = shots)
      (fun segs i hm hP => by
        show joinShots (applyMerge segs i) = shots
        rw [applyMerge_join minLen segs i hm]
        exact hP)
      (raw_segments shots).length (raw_segments shots) (raw_join shots)
  · intro minLen shots
    have hA : servesAtomic (phase_segments minLen shots) :=
      mergePass_preserve minLen servesAtomic
        (fun segs i hm hP => applyMerge_atomic minLen segs i hm hP)
        (raw_segments shots).length (raw_segments shots) (raw_atomic shots)
    intro seg hseg hserve
    exact (hA seg hseg).2 hserve

/-- Witness for the C5 theorem: the leading serve of the example rally
is its own singleton serve segment. -/
theorem serve_immovability_witness :
    ∃ sh, (⟨[⟨"Serve", true, 1⟩], "Serve", true⟩ : PhaseSegment).shots = [sh]
      ∧ sh.serve = true :=
  serve_immovability.1 trappedShots ⟨[⟨"Serve", true, 1⟩], "Serve", true⟩
    (by decide) rfl

/-- C10: a merged segment takes the category of whichever side had the
greater pre-merge shot count; its mean effectiveness is the
shot-count-weighted mean of the merged sides; a too-short interior
segment with two non-serve neighbors is merged toward the neighbor with
the longer shot count, the following one on a tie; and on the spec's
example rally `[Serve, Attack, Attack, Net, Reset, Reset, Reset]` with
`min_phase_length = 2` the final phases are exactly Serve(1), Attack(2)
and the merged Net+Reset phase of 4 shots. -/
theorem merge_tiebreak_and_example :
    (∀ (short nb : PhaseSegment) (first : Bool), segCount nb < segCount short →
      (mergedSeg short nb first).category = short.category) ∧
    (∀ (short nb : PhaseSegment) (first : Bool), segCount short < segCount nb →
      (mergedSeg short nb first).category = nb.category) ∧
    (∀ (short nb : PhaseSegment) (first : Bool), segCount short ≠ 0 → segCount nb ≠ 0 →
      mean_effectiveness (mergedSeg short nb first)
        = ((segCount short : ℚ) * mean_effectiveness short
            + (segCount nb : ℚ) * mean_effectiveness nb)
          / ((segCount short : ℚ) + (segCount nb : ℚ))) ∧
    (∀ (segs : List PhaseSegment) (i : ℕ) (pSeg nSeg : PhaseSegment), i ≠ 0 →
      segs[i-1]? = some pSeg → segs[i+1]? = some nSeg →
      pSeg.serve = false → nSeg.serve = false →
      mergeTarget segs i = some (if segCount pSeg ≤ segCount nSeg then i + 1 else i - 1)) ∧
    (phase_segments 2 exampleShots).map (fun s => (s.category, segCount s))
      = [("Serve", 1), ("Attack", 2), ("Reset", 4)] := by
  refine ⟨?_, ?_, ?_, ?_, by decide⟩
  · intro short nb first h
    simp [mergedSeg, h]
  · intro short nb first h
    simp [mergedSeg, Nat.not_lt.mpr (Nat.le_of_lt h)]
  · intro short nb first h1 h2
    have hcancel : ∀ (s c : ℚ), c ≠ 0 → c * (s / c) = s := by
      intro s c hc
      field_simp
    have hla : ((short.shots.length : ℕ) : ℚ) ≠ 0 := Nat.cast_ne_zero.mpr h1
    have hlb : ((nb.shots.length : ℕ) : ℚ) ≠ 0 := Nat.cast_ne_zero.mpr h2
    cases first with
    | true =>
      simp only [mean_effectiveness, mergedSeg, segCount, if_true, List.map_append,
        List.sum_append, List.length_append, Nat.cast_add]
      rw [hcancel _ _ hla, hcancel _ _ hlb]
    | false =>
      simp only [mean_effectiveness, mergedSeg, segCount, Bool.false_eq_true, if_false,
        List.map_append, List.sum_append, List.length_append, Nat.cast_add]
      rw [hcancel _ _ hla, hcancel _ _ hlb]
      ring
  · intro segs i pSeg nSeg hi0 hp hn hps hns
    unfold mergeTarget
    rw [if_neg hi0]
    have hpn : nbAt segs (i - 1) = some pSeg := by
      unfold nbAt
      simp [hp, hps]
    have hnn : nbAt segs (i + 1) = some nSeg := by
      unfold nbAt
      simp [hn, hns]
    rw [hpn, hnn]
    by_cases hc : segCount pSeg ≤ segCount nSeg
    · simp [hc]
    · simp [hc]

/-- Witness for the C10 theorem: merging a 1-shot segment into a 2-shot
neighbor yields the count-weighted mean effectiveness. -/
theorem merge_tiebreak_and_example_witness :
    mean_effectiveness (mergedSeg ⟨[⟨"Net", false, 2⟩], "Net", false⟩
        ⟨[⟨"Reset", false, 4⟩, ⟨"Reset", false, 6⟩], "Reset", false⟩ true)
      = ((segCount ⟨[⟨"Net", false, 2⟩], "Net", false⟩ : ℚ)
            * mean_effectiveness ⟨[⟨"Net", false, 2⟩], "Net", false⟩
          + (segCount ⟨[⟨"Reset", false, 4⟩, ⟨"Reset", false, 6⟩], "Reset", false⟩ : ℚ)
            * mean_effectiveness ⟨[⟨"Reset", false, 4⟩, ⟨"Reset", false, 6⟩], "Reset", false⟩)
        / ((segCount ⟨[⟨"Net", false, 2⟩], "Net", false⟩ : ℚ)
          + (segCount ⟨[⟨"Reset", false, 4⟩, ⟨"Reset", false, 6⟩], "Reset", false⟩ : ℚ)) :=
  merge_tiebreak_and_example.2.2.1 ⟨[⟨"Net", false, 2⟩], "Net", false⟩
    ⟨[⟨"Reset", false, 4⟩, ⟨"Reset", false, 6⟩], "Reset", false⟩ true
    (by decide) (by decide)

/-- Witness for the C3 theorem: a single-sample player resolves to a
real family with non-null thresholds and a non-null label. -/
theorem classification_always_resolves_witness :
    (choose_threshold_for_event
        ⟨none, "ck", "ok", "P0", [], [], [], [], [],
          build_baseline_stats [⟨"P0", some 1⟩]⟩).2.2 ≠ "none" ∧
    (choose_threshold_for_event
        ⟨none, "ck", "ok", "P0", [], [], [], [], [],
          build_baseline_stats [⟨"P0", some 1⟩]⟩).1.isSome = true ∧
    (choose_threshold_for_event
        ⟨none, "ck", "ok", "P0", [], [], [], [], [],
          build_baseline_stats [⟨"P0", some 1⟩]⟩).2.1.isSome = true ∧
    (classify_event (some 1)
        (choose_threshold_for_event
          ⟨none, "ck", "ok", "P0", [], [], [], [], [],
            build_baseline_stats [⟨"P0", some 1⟩]⟩).1
        (choose_threshold_for_event
          ⟨none, "ck", "ok", "P0", [], [], [], [], [],
            build_baseline_stats [⟨"P0", some 1⟩]⟩).2.1).isSome = true :=
  classification_always_resolves [⟨"P0", some 1⟩] "P0" (by decide)
    none "ck" "ok" [] [] [] [] [] 1
